import Mathlib

set_option maxHeartbeats 1000000

/- Shallow embedding of the Broke-No-More retrieval pipeline
   (src/utils.py, src/knowledge_base_simple.py, src/gemini_client.py,
   config/settings.py).  Python strings are modelled as `List Char`,
   Python floats as `ℚ`, and the MD5 content hash (get_file_hash,
   utils.py line 25) as an abstract function parameter `hash`: the
   development only uses that it is a deterministic function of the
   content, which is all the repository relies on. -/

/-- ASCII whitespace, the character class used by Python str.split()
    and str.strip() on the texts of the repository. -/
def pyIsWs (c : Char) : Bool :=
  c == ' ' || c == '\t' || c == '\n' || c == '\r' || c == '\x0b' || c == '\x0c'

/-- Python str.lower, ASCII range (Char.toLower lowercases A-Z). -/
def pyLower (s : List Char) : List Char := s.map Char.toLower

/-- Python str.strip(): remove whitespace from both ends. -/
def pyStrip (s : List Char) : List Char :=
  ((s.dropWhile pyIsWs).reverse.dropWhile pyIsWs).reverse

/-- Helper for pySplit: accumulate the current word (reversed) while
    scanning; emit it at each whitespace run and at the end. -/
def splitAux : List Char → List Char → List (List Char)
  | [], acc => if acc = [] then [] else [acc.reverse]
  | c :: rest, acc =>
    if pyIsWs c then
      if acc = [] then splitAux rest [] else acc.reverse :: splitAux rest []
    else splitAux rest (c :: acc)

/-- Python str.split() with no argument: split on whitespace runs,
    producing no empty words. -/
def pySplit (s : List Char) : List (List Char) := splitAux s []

/-- Helper for pyCount: scan left to right; after a match, skip the
    remaining length of the pattern so occurrences do not overlap. -/
def countAux (sub : List Char) : List Char → ℕ → ℕ
  | [], _ => 0
  | _ :: rest, skip + 1 => countAux sub rest skip
  | c :: rest, 0 =>
    if sub.isPrefixOf (c :: rest) then 1 + countAux sub rest (sub.length - 1)
    else countAux sub rest 0

/-- Python str.count(sub): number of non-overlapping occurrences.
    Counting the empty string yields len(s) + 1, as in Python. -/
def pyCount (s sub : List Char) : ℕ :=
  if sub = [] then s.length + 1 else countAux sub s 0

/-- Python text.rfind(ch, s, e) for a single character: the largest
    index i with s ≤ i < min e len(text) and text[i] = ch, as an Option
    (Python returns -1 when absent). -/
def pyRfind (text : List Char) (ch : Char) (s e : ℕ) : Option ℕ :=
  (((List.range (min e text.length)).filter (fun i => decide (s ≤ i))).filter
    (fun i => text.getD i ' ' == ch)).getLast?

/-- One boundary-adjusted cut position of chunk_text (utils.py lines
    109-122): raw end = start + chunk_size; if still inside the text,
    prefer a period past the midpoint (cutting after it), else a space
    past the midpoint. -/
def chunkEnd (text : List Char) (cs start : ℕ) : ℕ :=
  let e := start + cs
  if e < text.length then
    match pyRfind text '.' start e with
    | some j =>
      if start + cs / 2 < j then j + 1
      else
        match pyRfind text ' ' start e with
        | some w => if start + cs / 2 < w then w else e
        | none => e
    | none =>
      match pyRfind text ' ' start e with
      | some w => if start + cs / 2 < w then w else e
      | none => e
  else e

/-- The next window start (utils.py lines 128-131): Python
    `start = end - overlap; if start <= 0: start = end` in ℕ form
    (`end - overlap ≤ 0` over ℤ is `end ≤ overlap`). -/
def nextStart (text : List Char) (cs ov start : ℕ) : ℕ :=
  if chunkEnd text cs start ≤ ov then chunkEnd text cs start
  else chunkEnd text cs start - ov

/-- The stripped piece text[start:end].strip() (utils.py line 124). -/
def pieceAt (text : List Char) (cs start : ℕ) : List Char :=
  pyStrip ((text.drop start).take (chunkEnd text cs start - start))

/-- The while-loop of chunk_text (utils.py lines 108-131) with explicit
    fuel; none models a loop that has not exited within `fuel`
    iterations.  Each iteration cuts at chunkEnd, keeps the stripped
    piece when non-empty, and advances to nextStart. -/
def chunkLoop (text : List Char) (cs ov : ℕ) : ℕ → ℕ → Option (List (List Char))
  | 0, start => if text.length ≤ start then some [] else none
  | fuel + 1, start =>
    if text.length ≤ start then some []
    else
      match chunkLoop text cs ov fuel (nextStart text cs ov start) with
      | none => none
      | some rest =>
        if pieceAt text cs start = [] then some rest
        else some (pieceAt text cs start :: rest)

/-- chunk_text (utils.py lines 100-133), fuelled: short texts are
    returned whole, otherwise the loop runs. -/
def chunkTextF (fuel : ℕ) (text : List Char) (cs ov : ℕ) : Option (List (List Char)) :=
  if text.length ≤ cs then some [text] else chunkLoop text cs ov fuel 0

/-- chunk_text at the configured CHUNK_SIZE = 1000, CHUNK_OVERLAP = 200
    (config/settings.py lines 44-45), as invoked by add_document; fuel
    length + 1 suffices at these parameters because the start position
    advances by at least one character per iteration. -/
def chunksOf (content : List Char) : List (List Char) :=
  (chunkTextF (content.length + 1) content 1000 200).getD []

/-- A stored document record (knowledge_base_simple.py lines 69-78);
    the open metadata map carries no behaviour and is omitted. -/
structure Document where
  title : List Char
  filename : List Char
  file_type : List Char
  doc_hash : List Char
  content : List Char
  chunks : List (List Char)
  total_chunks : ℕ
deriving DecidableEq

/-- Store state: `documents` is the in-memory list self.documents,
    `durable` the contents of the JSON file, i.e. what _load_documents
    (lines 22-31) returns and _save_documents (lines 33-42) rewrites. -/
structure KBState where
  documents : List Document
  durable : List Document
deriving DecidableEq

def emptyKB : KBState := ⟨[], []⟩

/-- Outcome of add_document: True maps to `ok`, the three False paths
    carry which warning/error message was emitted. -/
inductive AddResult
  | ok
  | emptyWarn
  | dupWarn (filename : List Char)
  | saveFail
deriving DecidableEq

/-- Outcome of delete_document: True maps to `deleted`. -/
inductive DelResult
  | deleted
  | notFound
  | delSaveFail
deriving DecidableEq

/-- document_exists (knowledge_base_simple.py lines 155-157). -/
def document_exists (st : KBState) (h : List Char) : Bool :=
  st.documents.any (fun d => d.doc_hash == h)

/-- add_document (knowledge_base_simple.py lines 44-92) for the
    title+content call shape (filename = None, file_type = "text");
    `hash` abstracts get_file_hash over the encoded content, `saveOk`
    whether _save_documents succeeds.  On save failure the appended
    document is popped again (line 87). -/
def add_document (hash : List Char → List Char) (st : KBState)
    (title content : List Char) (saveOk : Bool) : KBState × AddResult :=
  let filename := if title ≠ [] then title else ("untitled".toList)
  if pyStrip content = [] then (st, .emptyWarn)
  else
    let chunks := chunksOf content
    let h := hash content
    if document_exists st h then (st, .dupWarn filename)
    else
      let doc : Document :=
        ⟨if title ≠ [] then title else filename, filename, "text".toList, h,
          content, chunks, chunks.length⟩
      let docs' := st.documents ++ [doc]
      if saveOk then (⟨docs', docs'⟩, .ok)
      else (⟨docs'.dropLast, st.durable⟩, .saveFail)

/-- delete_document (knowledge_base_simple.py lines 174-194): filter by
    hash; if something was removed, save, and on save failure reload the
    in-memory list from the durable snapshot (line 186). -/
def delete_document (st : KBState) (h : List Char) (saveOk : Bool) : KBState × DelResult :=
  let docs' := st.documents.filter (fun d => !(d.doc_hash == h))
  if docs'.length < st.documents.length then
    if saveOk then (⟨docs', docs'⟩, .deleted)
    else (⟨st.durable, st.durable⟩, .delSaveFail)
  else (⟨docs', st.durable⟩, .notFound)

/-- clear_all (knowledge_base_simple.py lines 211-221): empty the
    in-memory list, then save; on save failure it returns False without
    restoring the in-memory list. -/
def clear_all (st : KBState) (saveOk : Bool) : KBState × Bool :=
  if saveOk then (⟨[], []⟩, true) else (⟨[], st.durable⟩, false)

/-- A document summary as produced by get_all_documents. -/
structure DocSummary where
  title : List Char
  filename : List Char
  file_type : List Char
  doc_hash : List Char
  total_chunks : ℕ
deriving DecidableEq

/-- get_all_documents (knowledge_base_simple.py lines 159-172), the body
    of list_documents; metadata omitted as in `Document`. -/
def get_all_documents (st : KBState) : List DocSummary :=
  st.documents.map (fun d => ⟨d.title, d.filename, d.file_type, d.doc_hash, d.total_chunks⟩)

/-- A search result record (knowledge_base_simple.py lines 126-134). -/
structure SearchResult where
  content : List Char
  title : List Char
  filename : List Char
  file_type : List Char
  similarity : ℚ
  chunk_index : ℕ
  score : ℕ
deriving DecidableEq

/-- SIMILARITY_THRESHOLD (config/settings.py line 47). -/
def SIMILARITY_THRESHOLD : ℚ := 7 / 10

/-- len(query_words.intersection(chunk_words)) (line 120), on word lists:
    the number of distinct query words also occurring in the chunk. -/
def wordOverlap (qws cws : List (List Char)) : ℕ :=
  (qws.dedup.filter (fun w => decide (w ∈ cws))).length

/-- len(query_words) (line 131), the size of the set of query words. -/
def querySetSize (q : List Char) : ℕ := (pySplit (pyLower q)).dedup.length

/-- Scoring of a single chunk (knowledge_base_simple.py lines 111-134):
    exact_matches * 3 + word_overlap, kept only when positive, with
    similarity = min(score / (len(query_words) + 3), 1.0). -/
def scoreChunk (q : List Char) (doc : Document) (i : ℕ) (chunk : List Char) :
    Option SearchResult :=
  let chunkLower := pyLower chunk
  let exact := pyCount chunkLower (pyLower q)
  let wo := wordOverlap (pySplit (pyLower q)) (pySplit chunkLower)
  let score := exact * 3 + wo
  if 0 < score then
    some ⟨chunk, doc.title, doc.filename, doc.file_type,
      min ((score : ℚ) / (querySetSize q + 3)) 1, i, score⟩
  else none

/-- The scored_chunks list (lines 108-134): every positively scored
    chunk, in document order then chunk order (insertion order). -/
def scoreChunks (docs : List Document) (q : List Char) : List SearchResult :=
  docs.flatMap (fun d => d.chunks.enum.filterMap (fun p => scoreChunk q d p.1 p.2))

/-- Insert x below every already-placed element of score ≥ x.score.
    Folding insertDesc over the list models the Python
    list.sort(key=score, reverse=True): a stable descending sort. -/
def insertDesc (x : SearchResult) : List SearchResult → List SearchResult
  | [] => [x]
  | y :: ys => if y.score < x.score then x :: y :: ys else y :: insertDesc x ys

/-- Stable descending sort by score (line 137). -/
def sortDesc (l : List SearchResult) : List SearchResult :=
  l.foldl (fun acc x => insertDesc x acc) []

/-- search_documents (knowledge_base_simple.py lines 98-149), the body of
    search: score, stable-sort descending, truncate to top_k, then keep
    results with similarity ≥ SIMILARITY_THRESHOLD / 2 (lines 136-145). -/
def search_documents (st : KBState) (q : List Char) (topK : ℕ) : List SearchResult :=
  ((sortDesc (scoreChunks st.documents q)).take topK).filter
    (fun r => decide (SIMILARITY_THRESHOLD / 2 ≤ r.similarity))

/-- The search pipeline in the order the spec states it (spec 4.4 steps
    6-7): qualifying chunks sorted descending, restricted to similarity ≥
    the floor, then truncated to topK. -/
def searchSpecOrder (st : KBState) (q : List Char) (topK : ℕ) : List SearchResult :=
  (((sortDesc (scoreChunks st.documents q)).filter
    (fun r => decide (SIMILARITY_THRESHOLD / 2 ≤ r.similarity))).take topK)

/-- A generate_response return value (gemini_client.py lines 49-61). -/
structure GenResponse where
  answer : List Char
  confidence : ℚ
  sources : List SearchResult
deriving DecidableEq

/-- The fixed apology substituted on generation failure (line 58). -/
def apologyMessage : List Char :=
  "I\x27m sorry, I encountered an error while generating a response. Please try again.".toList

/-- The reference-material block of _create_prompt (lines 65-68). -/
def contextBlock (ctxTexts : List (List Char)) : List Char :=
  if ctxTexts = [] then ("No specific reference material provided.".toList)
  else
    (String.intercalate ("\n\n") (ctxTexts.enum.map (fun p =>
      "Reference Material " ++ toString (p.1 + 1) ++ ":\n" ++ String.mk p.2))).toList

/-- Prompt construction _create_prompt (gemini_client.py lines 63-111): fixed instruction
    template with the context block and the question interpolated. -/
def create_prompt (question : List Char) (ctxTexts : List (List Char)) : List Char :=
  ("You are a highly knowledgeable Certified Financial Planner (CFP) and personal finance expert with over 20 years of experience helping people achieve their financial goals. You have deep expertise in budgeting, investing, debt management, retirement planning, insurance, and tax strategies.\n\nIMPORTANT - Your Response Style:\n• Respond as a confident financial expert and educator\n• Use a warm, educational, and encouraging tone\n• Provide practical, actionable advice\n• Break down complex concepts into easy-to-understand explanations\n• Use examples and analogies when helpful\n• Never mention \"based on provided text\" or reference materials\n• Speak directly to the person asking the question\n• Be authoritative but approachable\n\nGUIDELINES:\n• Provide comprehensive, practical financial advice\n• Use clear, jargon-free language while maintaining expertise\n• Include specific steps or recommendations when appropriate\n• Always prioritize the person\x27s financial safety and well-being\n• If you need more information to give the best advice, ask clarifying questions\n• Include helpful tips and best practices\n• Make your advice actionable and specific\n\nCRITICAL - RESPONSE FORMAT AND REFERENCE REQUIREMENTS:\nPlease write your response in a highly educational and easy-to-read format. Begin with a brief introduction that explains the topic or task in simple terms, so that even someone new to the subject can understand. Use clear, concise language throughout.\n\nOrganize the main content into well-structured paragraphs. Each paragraph should focus on a single idea or step, providing enough detail to guide the reader without overwhelming them. If you need to list items or steps, use bullet points sparingly to improve the clarity andintegrate lists naturally into the text.\n\nConclude with a short summary or a helpful tip that reinforces the key points. Make sure the overall tone is friendly and encouraging, inviting the reader to learn and explore further.\n\nIMPORTANT - DOCUMENT REFERENCES:\n• Never mention \"based on provided text\", \"reference materials\", \"documents\", or similar phrases\n• Do not cite specific PDFs or reference sources in your response\n• Occasionally (every few responses), you may naturally reference \"Broke No More\" by Sasha Albright as a helpful financial resource\n• Present all advice as your own expert knowledge and experience\n\nREFERENCE MATERIALS (use this knowledge naturally in your response):\n").toList
  ++ contextBlock ctxTexts
  ++ ("\n\nQUESTION: ").toList ++ question
  ++ ("\n\nProvide a comprehensive, expert response that educates and empowers the person to make informed financial decisions:").toList

/-- generate_response (gemini_client.py lines 23-61).  The external call
    model.generate_content together with reading response.text is
    abstracted as `llm`; Except.error models any raised exception, which
    the bare except at line 55 catches, substituting the fixed apology
    with confidence 0.0 and empty sources.  The Lean function is total:
    the caller always receives a GenResponse. -/
def generate_response (llm : List Char → Except (List Char) (List Char))
    (question : List Char) (ctx : List SearchResult) : GenResponse :=
  let contextTexts := ctx.map (fun r => r.content)
  let prompt := create_prompt question contextTexts
  match llm prompt with
  | .ok t => ⟨t, if contextTexts = [] then 1 / 2 else 4 / 5, ctx.take 3⟩
  | .error _ => ⟨apologyMessage, 0, []⟩

/-- The mutating store operations, for reachability statements. -/
inductive KBOp
  | addOp (title content : List Char) (saveOk : Bool)
  | delOp (h : List Char) (saveOk : Bool)
  | clearOp (saveOk : Bool)

/-- Apply one mutating operation to the store state. -/
def applyOp (hash : List Char → List Char) (st : KBState) : KBOp → KBState
  | .addOp t c s => (add_document hash st t c s).1
  | .delOp h s => (delete_document st h s).1
  | .clearOp s => (clear_all st s).1

/-- The store state reached from the empty store by a sequence of
    mutating operations. -/
def applyOps (hash : List Char → List Char) (ops : List KBOp) : KBState :=
  ops.foldl (applyOp hash) emptyKB

/-- The identity function on strings, a concrete deterministic instance
    of the abstract content hash used in witnesses. -/
def idHash : List Char → List Char := fun c => c

/-- A store holding one document with title "t" and content "hi",
    reached from the empty store by one successful add. -/
def kbOneDoc : KBState :=
  (add_document idHash emptyKB ("t".toList) ("hi".toList) true).1

/-- The single result produced by searching kbOneDoc with the empty
    query: the chunk "hi" scores count("", "hi") * 3 = 9 and similarity
    min(9 / 3, 1) = 1. -/
def hiResult : SearchResult :=
  ⟨"hi".toList, "t".toList, "t".toList, "text".toList, 1, 0, 9⟩

/- ------------------------------------------------------------------ -/
/- Lemmas about the chunker                                           -/
/- ------------------------------------------------------------------ -/

lemma pyStrip_length (s : List Char) : (pyStrip s).length ≤ s.length := by
  have h1 := (@List.dropWhile_sublist Char s pyIsWs).length_le
  have h2 := (@List.dropWhile_sublist Char (s.dropWhile pyIsWs).reverse pyIsWs).length_le
  simp only [List.length_reverse] at h2
  simpa [pyStrip] using le_trans h2 h1

lemma pyStrip_ne_nil {s : List Char} (h : ∃ c ∈ s, ¬ pyIsWs c = true) :
    pyStrip s ≠ [] := by
  obtain ⟨c, hc, hw⟩ := h
  intro hnil
  unfold pyStrip at hnil
  have h2 := List.reverse_eq_nil_iff.mp hnil
  have h3 := List.dropWhile_eq_nil_iff.mp h2
  have h4 : ∀ x ∈ s.dropWhile pyIsWs, pyIsWs x = true := by
    intro x hx
    exact h3 x (List.mem_reverse.mpr hx)
  have h5 : c ∈ s.takeWhile pyIsWs ++ s.dropWhile pyIsWs := by
    rw [List.takeWhile_append_dropWhile]
    exact hc
  rcases List.mem_append.mp h5 with h6 | h6
  · exact hw (List.mem_takeWhile_imp h6)
  · exact hw (h4 c h6)

lemma pyRfind_some {text : List Char} {ch : Char} {s e j : ℕ}
    (h : pyRfind text ch s e = some j) : s ≤ j ∧ j < e ∧ j < text.length := by
  unfold pyRfind at h
  have hm := List.mem_of_mem_getLast? h
  have hm2 := List.mem_filter.mp hm
  have hm3 := List.mem_filter.mp hm2.1
  have hr := List.mem_range.mp hm3.1
  have hs := of_decide_eq_true hm3.2
  exact ⟨hs, (lt_min_iff.mp hr).1, (lt_min_iff.mp hr).2⟩

lemma chunkEnd_le (text : List Char) (cs start : ℕ) :
    chunkEnd text cs start ≤ start + cs := by
  simp only [chunkEnd]
  split
  · rcases hdot : pyRfind text '.' start (start + cs) with _ | j
    · rcases hsp : pyRfind text ' ' start (start + cs) with _ | w
      · simp [hdot, hsp]
      · have hw := pyRfind_some hsp
        simp only [hdot, hsp]
        split <;> omega
    · have hj := pyRfind_some hdot
      simp only [hdot]
      split
      · omega
      · rcases hsp : pyRfind text ' ' start (start + cs) with _ | w
        · simp [hsp]
        · have hw := pyRfind_some hsp
          simp only [hsp]
          split <;> omega
  · omega

lemma lt_chunkEnd (text : List Char) (cs start : ℕ) (hcs : 0 < cs) :
    start < chunkEnd text cs start := by
  simp only [chunkEnd]
  split
  · rcases hdot : pyRfind text '.' start (start + cs) with _ | j
    · rcases hsp : pyRfind text ' ' start (start + cs) with _ | w
      · simp [hdot, hsp]; omega
      · have hw := pyRfind_some hsp
        simp only [hdot, hsp]
        split <;> omega
    · have hj := pyRfind_some hdot
      simp only [hdot]
      split
      · omega
      · rcases hsp : pyRfind text ' ' start (start + cs) with _ | w
        · simp [hsp]; omega
        · have hw := pyRfind_some hsp
          simp only [hsp]
          split <;> omega
  · omega

lemma nextStart_le_chunkEnd (text : List Char) (cs ov start : ℕ) :
    nextStart text cs ov start ≤ chunkEnd text cs start := by
  unfold nextStart
  split <;> omega

lemma pieceAt_length (text : List Char) (cs start : ℕ) :
    (pieceAt text cs start).length ≤ cs := by
  unfold pieceAt
  have h1 := pyStrip_length ((text.drop start).take (chunkEnd text cs start - start))
  have h2 := List.length_take (chunkEnd text cs start - start) (text.drop start)
  have h3 := chunkEnd_le text cs start
  have h4 : ((text.drop start).take (chunkEnd text cs start - start)).length ≤
      chunkEnd text cs start - start := by
    rw [h2]; exact min_le_left _ _
  omega

lemma chunkLoop_sound (text : List Char) (cs ov : ℕ) :
    ∀ (fuel start : ℕ) (out : List (List Char)),
      chunkLoop text cs ov fuel start = some out →
      ∀ c ∈ out, c ≠ [] ∧ c.length ≤ cs := by
  intro fuel
  induction fuel with
  | zero =>
    intro start out h c hc
    simp only [chunkLoop] at h
    split at h
    · cases h; simp at hc
    · cases h
  | succ n ih =>
    intro start out h c hc
    simp only [chunkLoop] at h
    split at h
    · cases h; simp at hc
    · rcases hrec : chunkLoop text cs ov n (nextStart text cs ov start) with _ | rest
      · simp [hrec] at h
      · simp only [hrec] at h
        split at h
        · cases h
          exact ih _ _ hrec c hc
        · cases h
          rcases List.mem_cons.mp hc with hcp | hcr
          · subst hcp
            refine ⟨by assumption, pieceAt_length text cs start⟩
          · exact ih _ _ hrec c hcr

lemma chunkLoop_cover (text : List Char) (cs ov : ℕ) :
    ∀ (fuel start : ℕ) (out : List (List Char)),
      chunkLoop text cs ov fuel start = some out →
      ∀ p (hp : p < text.length), start ≤ p → ¬ pyIsWs (text[p]) = true →
      out ≠ [] := by
  intro fuel
  induction fuel with
  | zero =>
    intro start out h p hp hsp hws
    simp only [chunkLoop] at h
    split at h
    · omega
    · cases h
  | succ n ih =>
    intro start out h p hp hsp hws
    simp only [chunkLoop] at h
    split at h
    · omega
    · rcases hrec : chunkLoop text cs ov n (nextStart text cs ov start) with _ | rest
      · simp [hrec] at h
      · simp only [hrec] at h
        by_cases hpe : p < chunkEnd text cs start
        · have hpc : pieceAt text cs start ≠ [] := by
            apply pyStrip_ne_nil
            refine ⟨text[p], ?_, hws⟩
            have hidx : ((text.drop start).take (chunkEnd text cs start - start))[p - start]?
                = some (text[p]) := by
              rw [List.getElem?_take, if_pos (by omega), List.getElem?_drop]
              have hps : start + (p - start) = p := by omega
              rw [hps, List.getElem?_eq_getElem hp]
            exact List.getElem?_mem hidx
          rw [if_neg hpc] at h
          cases h
          simp
        · have hnext : nextStart text cs ov start ≤ p :=
            le_trans (nextStart_le_chunkEnd text cs ov start) (by omega)
          have hrne := ih _ rest hrec p hp hnext hws
          split at h <;> (cases h; simp_all)

/-- Corrected shape property of chunk_text: whenever the loop returns,
    every chunk is non-empty of length ≤ chunk_size, and the output is
    non-empty provided the text contains at least one non-whitespace
    character (a non-empty all-whitespace text longer than chunk_size
    produces an empty output, so the stronger claim fails). -/
theorem chunk_text_shape (fuel : ℕ) (text : List Char) (cs ov : ℕ)
    (out : List (List Char)) (htext : text ≠ [])
    (h : chunkTextF fuel text cs ov = some out) :
    (∀ c ∈ out, c ≠ [] ∧ c.length ≤ cs) ∧
    ((∃ ch ∈ text, ¬ pyIsWs ch = true) → out ≠ []) := by
  unfold chunkTextF at h
  split at h
  · cases h
    constructor
    · intro c hc
      rcases List.mem_singleton.mp hc with rfl
      exact ⟨htext, by assumption⟩
    · intro _
      simp
  · constructor
    · exact chunkLoop_sound text cs ov fuel 0 out h
    · rintro ⟨ch, hch, hws⟩
      obtain ⟨p, hp, rfl⟩ := List.mem_iff_getElem.mp hch
      exact chunkLoop_cover text cs ov fuel 0 out h p hp (Nat.zero_le p) hws

/-- One unfolding step of the loop when the exit condition fails. -/
lemma chunkLoop_succ (text : List Char) (cs ov n start : ℕ)
    (h : ¬ text.length ≤ start) :
    chunkLoop text cs ov (n + 1) start =
      match chunkLoop text cs ov n (nextStart text cs ov start) with
      | none => none
      | some rest =>
        if pieceAt text cs start = [] then some rest
        else some (pieceAt text cs start :: rest) := by
  simp only [chunkLoop, if_neg h]

/-- On the ten-character space-free text, chunk_size 3 and overlap 5, the
    start position cycles through 0, 3, 1, 4, 2, 5, 3, 1, ... and never
    reaches the text length, so the loop never exits regardless of fuel. -/
lemma chunkLoop_cycle :
    ∀ fuel, ∀ s ∈ ([0, 3, 1, 4, 2, 5] : List ℕ),
      chunkLoop ("aaaaaaaaaa".toList) 3 5 fuel s = none := by
  intro fuel
  induction fuel with
  | zero =>
    intro s hs
    simp only [List.mem_cons, List.not_mem_nil, or_false] at hs
    rcases hs with rfl | rfl | rfl | rfl | rfl | rfl <;> decide
  | succ n ih =>
    intro s hs
    simp only [List.mem_cons, List.not_mem_nil, or_false] at hs
    rcases hs with rfl | rfl | rfl | rfl | rfl | rfl <;>
      rw [chunkLoop_succ _ _ _ _ _ (by decide), ih _ (by decide)]

/-- The forced-advance rule of the code, `if start <= 0: start = end` does not
    guarantee termination: with overlap ≥ chunk_size the loop can cycle.
    For text of ten non-space non-period characters, chunk_size 3 and
    overlap 5, chunk_text never returns, whatever the iteration budget. -/
theorem chunk_text_nonterminating :
    ∀ fuel, chunkTextF fuel ("aaaaaaaaaa".toList) 3 5 = none := by
  intro fuel
  have h : ¬ (("aaaaaaaaaa".toList).length ≤ 3) := by decide
  simp only [chunkTextF, if_neg h]
  exact chunkLoop_cycle fuel 0 (by decide)

/-- The start of the cycle is visibly reached: the first two iterations
    already revisit start = 3 after passing through 3 and 1. -/
theorem chunk_text_nonterminating_example :
    nextStart ("aaaaaaaaaa".toList) 3 5 0 = 3 ∧
    nextStart ("aaaaaaaaaa".toList) 3 5 3 = 1 ∧
    nextStart ("aaaaaaaaaa".toList) 3 5 1 = 4 ∧
    nextStart ("aaaaaaaaaa".toList) 3 5 4 = 2 ∧
    nextStart ("aaaaaaaaaa".toList) 3 5 2 = 5 ∧
    nextStart ("aaaaaaaaaa".toList) 3 5 5 = 3 := by
  decide

/-- Counterexample to the chunker shape claim as stated: the whitespace
    text of five spaces is a non-empty input, chunk_size 3 is positive,
    yet chunking returns the empty sequence (every window strips to the
    empty string and is dropped). -/
theorem chunk_whitespace_counterexample :
    chunkTextF 10 ("     ".toList) 3 0 = some [] ∧ "     ".toList ≠ [] := by
  decide

/-- Witness for chunk_text_shape: on the text "hi" with chunk_size 3 the
    returned chunk list is ["hi"], whose sole element is non-empty of
    length ≤ 3, and the output is non-empty. -/
theorem chunk_text_shape_witness :
    ("hi".toList ≠ [] ∧ ("hi".toList).length ≤ 3) ∧
      (["hi".toList] : List (List Char)) ≠ [] := by
  have hrun : chunkTextF 10 ("hi".toList) 3 0 = some ["hi".toList] := by decide
  have hmain := chunk_text_shape 10 ("hi".toList) 3 0 ["hi".toList] (by decide) hrun
  exact ⟨hmain.1 ("hi".toList) (by simp), hmain.2 ⟨'h', by decide, by decide⟩⟩

/- ------------------------------------------------------------------ -/
/- Lemmas about the lexical retriever                                 -/
/- ------------------------------------------------------------------ -/

lemma mem_insertDesc {x a : SearchResult} :
    ∀ {l : List SearchResult}, a ∈ insertDesc x l ↔ a = x ∨ a ∈ l := by
  intro l
  induction l with
  | nil => simp [insertDesc]
  | cons y ys ih =>
    simp only [insertDesc]
    split
    · simp [List.mem_cons]
    · simp only [List.mem_cons, ih]
      tauto

lemma mem_foldl_insertDesc :
    ∀ (l acc : List SearchResult) (a : SearchResult),
      a ∈ l.foldl (fun acc x => insertDesc x acc) acc ↔ a ∈ acc ∨ a ∈ l := by
  intro l
  induction l with
  | nil => simp
  | cons x xs ih =>
    intro acc a
    simp only [List.foldl_cons]
    rw [ih]
    simp only [mem_insertDesc, List.mem_cons]
    tauto

lemma mem_sortDesc {a : SearchResult} {l : List SearchResult} :
    a ∈ sortDesc l ↔ a ∈ l := by
  unfold sortDesc
  rw [mem_foldl_insertDesc]
  simp

lemma insertDesc_sorted (x : SearchResult) :
    ∀ {l : List SearchResult},
      l.Pairwise (fun a b => b.score ≤ a.score) →
      (insertDesc x l).Pairwise (fun a b => b.score ≤ a.score) := by
  intro l
  induction l with
  | nil =>
    intro _
    simp [insertDesc]
  | cons y ys ih =>
    intro hp
    rcases List.pairwise_cons.mp hp with ⟨hy, hys⟩
    simp only [insertDesc]
    split
    · refine List.pairwise_cons.mpr ⟨?_, hp⟩
      intro b hb
      rcases List.mem_cons.mp hb with rfl | hb2
      · omega
      · have := hy b hb2
        omega
    · refine List.pairwise_cons.mpr ⟨?_, ih hys⟩
      intro b hb
      rcases mem_insertDesc.mp hb with rfl | hb2
      · omega
      · exact hy b hb2

lemma sortDesc_sorted (l : List SearchResult) :
    (sortDesc l).Pairwise (fun a b => b.score ≤ a.score) := by
  unfold sortDesc
  suffices h : ∀ (m acc : List SearchResult),
      acc.Pairwise (fun a b => b.score ≤ a.score) →
      (m.foldl (fun acc x => insertDesc x acc) acc).Pairwise
        (fun a b => b.score ≤ a.score) by
    exact h l [] (by simp)
  intro m
  induction m with
  | nil =>
    intro acc h
    simpa using h
  | cons x xs ih =>
    intro acc h
    exact ih _ (insertDesc_sorted x h)

lemma takeWhile_take_comm {α : Type} (P : α → Bool) :
    ∀ (l : List α) (k : ℕ), (l.take k).takeWhile P = (l.takeWhile P).take k := by
  intro l
  induction l with
  | nil =>
    intro k
    simp
  | cons x xs ih =>
    intro k
    cases k with
    | zero => simp
    | succ n =>
      cases hpx : P x
      · simp [List.takeWhile_cons, hpx]
      · simp [List.takeWhile_cons, hpx, ih n]

lemma filter_eq_takeWhile_of_pairwise {α : Type} (P : α → Bool) :
    ∀ (l : List α), l.Pairwise (fun a b => P b = true → P a = true) →
      l.filter P = l.takeWhile P := by
  intro l
  induction l with
  | nil =>
    intro _
    simp
  | cons x xs ih =>
    intro hp
    rcases List.pairwise_cons.mp hp with ⟨hx, hxs⟩
    cases hpx : P x
    · have hnone : ∀ y ∈ xs, ¬ P y = true := by
        intro y hy hPy
        have hcontra := hx y hy hPy
        simp [hpx] at hcontra
      simp [List.filter_cons, List.takeWhile_cons, hpx,
        List.filter_eq_nil_iff.mpr hnone]
    · simp [List.filter_cons, List.takeWhile_cons, hpx, ih hxs]

lemma filter_take_of_pairwise {α : Type} (P : α → Bool) (l : List α) (k : ℕ)
    (hp : l.Pairwise (fun a b => P b = true → P a = true)) :
    (l.take k).filter P = (l.filter P).take k := by
  have h1 : (l.take k).Pairwise (fun a b => P b = true → P a = true) :=
    List.Pairwise.sublist (List.take_sublist k l) hp
  rw [filter_eq_takeWhile_of_pairwise P _ h1, takeWhile_take_comm P l k,
    ← filter_eq_takeWhile_of_pairwise P l hp]

lemma scoreChunk_some {q : List Char} {doc : Document} {i : ℕ} {chunk : List Char}
    {r : SearchResult} (h : scoreChunk q doc i chunk = some r) :
    r.content = chunk ∧ r.title = doc.title ∧ r.filename = doc.filename ∧
    r.file_type = doc.file_type ∧ r.chunk_index = i ∧
    r.score = pyCount (pyLower chunk) (pyLower q) * 3 +
      wordOverlap (pySplit (pyLower q)) (pySplit (pyLower chunk)) ∧
    0 < r.score ∧
    r.similarity = min ((r.score : ℚ) / (querySetSize q + 3)) 1 := by
  simp only [scoreChunk] at h
  split at h
  · cases h
    refine ⟨rfl, rfl, rfl, rfl, rfl, rfl, by assumption, rfl⟩
  · cases h

lemma mem_scoreChunks {docs : List Document} {q : List Char} {r : SearchResult}
    (h : r ∈ scoreChunks docs q) :
    ∃ d ∈ docs, ∃ i chunk, (i, chunk) ∈ d.chunks.enum ∧
      scoreChunk q d i chunk = some r := by
  unfold scoreChunks at h
  rcases List.mem_flatMap.mp h with ⟨d, hd, hr⟩
  rcases List.mem_filterMap.mp hr with ⟨p, hp, hsc⟩
  exact ⟨d, hd, p.1, p.2, hp, hsc⟩

lemma mem_search_scored {st : KBState} {q : List Char} {k : ℕ} {r : SearchResult}
    (h : r ∈ search_documents st q k) : r ∈ scoreChunks st.documents q := by
  unfold search_documents at h
  have h1 := List.mem_of_mem_filter h
  have h2 := List.take_subset k _ h1
  exact mem_sortDesc.mp h2

lemma scoreChunks_similarity {docs : List Document} {q : List Char}
    {r : SearchResult} (h : r ∈ scoreChunks docs q) :
    r.similarity = min ((r.score : ℚ) / (querySetSize q + 3)) 1 := by
  rcases mem_scoreChunks h with ⟨d, _, i, chunk, _, hsc⟩
  exact (scoreChunk_some hsc).2.2.2.2.2.2.2

lemma similarity_mono (q : List Char) {a b : SearchResult}
    (ha : a.similarity = min ((a.score : ℚ) / (querySetSize q + 3)) 1)
    (hb : b.similarity = min ((b.score : ℚ) / (querySetSize q + 3)) 1)
    (hs : b.score ≤ a.score) : b.similarity ≤ a.similarity := by
  rw [ha, hb]
  have hd : (0 : ℚ) < (querySetSize q : ℚ) + 3 := by positivity
  refine min_le_min ?_ le_rfl
  have hcast : ((b.score : ℚ)) ≤ ((a.score : ℚ)) := by exact_mod_cast hs
  exact (div_le_div_iff_of_pos_right hd).mpr hcast

/-- The search pipeline agrees with the order of operations the spec states:
    because the list is sorted descending by score and similarity is
    monotone in score (for a fixed query), truncating to top_k before
    the similarity filter (as the code does) equals filtering first and
    then truncating (as the spec states); the result is exactly the
    positively scored chunks, stably sorted descending, restricted to
    similarity ≥ the floor, truncated to top_k. -/
theorem search_matches_spec_order (st : KBState) (q : List Char) (k : ℕ) :
    search_documents st q k = searchSpecOrder st q k := by
  unfold search_documents searchSpecOrder
  apply filter_take_of_pairwise
  have hsorted := sortDesc_sorted (scoreChunks st.documents q)
  refine hsorted.imp_of_mem ?_
  intro a b ha hb hscore hPb
  have hb' := of_decide_eq_true hPb
  apply decide_eq_true
  have hasim := scoreChunks_similarity (mem_sortDesc.mp ha)
  have hbsim := scoreChunks_similarity (mem_sortDesc.mp hb)
  exact le_trans hb' (similarity_mono q hasim hbsim hscore)

/-- Every returned search result carries
    similarity = min(score / (len(query_words) + 3), 1), which lies in
    [0, 1]. -/
theorem search_similarity_formula (st : KBState) (q : List Char) (k : ℕ)
    (r : SearchResult) (h : r ∈ search_documents st q k) :
    r.similarity = min ((r.score : ℚ) / (querySetSize q + 3)) 1 ∧
    0 ≤ r.similarity ∧ r.similarity ≤ 1 := by
  have hs := mem_search_scored h
  have hsim := scoreChunks_similarity hs
  refine ⟨hsim, ?_, ?_⟩
  · rw [hsim]
    refine le_min (div_nonneg ?_ ?_) zero_le_one
    · positivity
    · positivity
  · rw [hsim]
    exact min_le_right _ _

/-- Evaluation of the search pipeline on the one-document store with the
    empty query: the chunk "hi" is returned with score 9, similarity 1. -/
lemma kbOneDoc_empty_query_eval :
    search_documents kbOneDoc [] 5 = [hiResult] := by
  have h : kbOneDoc.documents = [⟨"t".toList, "t".toList, "text".toList,
      "hi".toList, "hi".toList, ["hi".toList], 1⟩] := by decide
  simp only [search_documents, scoreChunks, h, hiResult]
  norm_num [scoreChunk, sortDesc, insertDesc, SIMILARITY_THRESHOLD, List.enum,
    List.enumFrom, querySetSize, wordOverlap, pySplit, splitAux, pyLower, pyCount,
    min_def, List.filterMap_cons, List.filterMap_nil, List.foldl, List.take,
    List.flatMap, countAux]

/-- Counterexample to the empty-query claim: on a store holding one
    document with chunk "hi", the empty query returns a non-empty result
    list, because the Python count of the empty string inside a chunk is
    len(chunk) + 1, so exact_matches is positive for every chunk even
    though word_overlap is 0. -/
theorem empty_query_returns_results :
    search_documents kbOneDoc [] 5 ≠ [] := by
  rw [kbOneDoc_empty_query_eval]
  simp

lemma pyIsWs_toLower {c : Char} (h : pyIsWs c = true) :
    pyIsWs c.toLower = true := by
  have hc : c = ' ' ∨ c = '\t' ∨ c = '\n' ∨ c = '\r' ∨ c = '\x0b' ∨ c = '\x0c' := by
    simp only [pyIsWs, Bool.or_eq_true, beq_iff_eq] at h
    tauto
  rcases hc with rfl | rfl | rfl | rfl | rfl | rfl <;> decide

lemma pySplit_all_ws : ∀ {s : List Char}, (∀ c ∈ s, pyIsWs c = true) →
    pySplit s = [] := by
  intro s
  induction s with
  | nil =>
    intro _
    rfl
  | cons c rest ih =>
    intro h
    have hc : pyIsWs c = true := h c (List.mem_cons_self c rest)
    simp only [pySplit, splitAux, if_pos hc]
    exact ih fun x hx => h x (List.mem_cons_of_mem c hx)

/-- Corrected form of the empty-query claim: a whitespace-only (or empty)
    query indeed contributes word_overlap = 0 to every chunk, so every
    returned result owes its whole score to exact substring matches:
    score = count(chunk, query) * 3.  The conclusion that the result set
    is therefore empty does not hold (see the counterexample). -/
theorem ws_query_score_exact_only (q : List Char)
    (hq : ∀ c ∈ q, pyIsWs c = true) (st : KBState) (k : ℕ) (r : SearchResult)
    (h : r ∈ search_documents st q k) :
    r.score = pyCount (pyLower r.content) (pyLower q) * 3 := by
  have hs := mem_search_scored h
  rcases mem_scoreChunks hs with ⟨d, hd, i, chunk, hen, hsc⟩
  have hf := scoreChunk_some hsc
  have hql : ∀ c ∈ pyLower q, pyIsWs c = true := by
    intro c hc
    rcases List.mem_map.mp hc with ⟨c0, hc0, rfl⟩
    exact pyIsWs_toLower (hq c0 hc0)
  have hwo : wordOverlap (pySplit (pyLower q)) (pySplit (pyLower chunk)) = 0 := by
    rw [pySplit_all_ws hql]
    rfl
  rw [hf.1, hf.2.2.2.2.2.1, hwo]
  omega

/-- Witness for ws_query_score_exact_only at the empty query on the
    one-document store: the returned result has score 9 = count("hi", "")
    * 3 = (2 + 1) * 3. -/
theorem ws_query_score_exact_only_witness :
    hiResult.score = pyCount (pyLower hiResult.content) (pyLower []) * 3 :=
  ws_query_score_exact_only [] (by simp) kbOneDoc 5 hiResult
    (by rw [kbOneDoc_empty_query_eval]; simp)

/-- Witness for search_similarity_formula: the result returned for the
    empty query on the one-document store satisfies the similarity
    formula and the [0, 1] bounds. -/
theorem search_similarity_formula_witness :
    hiResult.similarity = min ((hiResult.score : ℚ) / (querySetSize [] + 3)) 1 ∧
    0 ≤ hiResult.similarity ∧ hiResult.similarity ≤ 1 :=
  search_similarity_formula kbOneDoc [] 5 hiResult
    (by rw [kbOneDoc_empty_query_eval]; simp)

/- ------------------------------------------------------------------ -/
/- Lemmas about the document store                                    -/
/- ------------------------------------------------------------------ -/

/-- Counterexample to the write-failure claim for clear: on a one
    document store, a failed save during clear_all reports False but
    leaves the in-memory collection empty while the durable snapshot
    still holds the document — the in-memory view is ahead of durable
    state and is not reconciled. -/
theorem clear_write_failure_counterexample :
    (clear_all kbOneDoc false).2 = false ∧
    (clear_all kbOneDoc false).1.documents ≠ (clear_all kbOneDoc false).1.durable := by
  decide

/-- Corrected write-failure guarantee: it holds for add and delete.  A
    failed save during add pops the appended document, leaving the state
    exactly as before the call; a failed save during delete reloads the
    in-memory list from the durable snapshot, so afterwards the
    in-memory view equals durable state; both report the failure. -/
theorem add_delete_write_failure (hash : List Char → List Char) (st : KBState)
    (title content h : List Char)
    (hc : pyStrip content ≠ []) (hnd : document_exists st (hash content) = false)
    (hdel : h ∈ st.documents.map Document.doc_hash) :
    (add_document hash st title content false).1 = st ∧
    (add_document hash st title content false).2 = .saveFail ∧
    (delete_document st h false).1.documents = st.durable ∧
    (delete_document st h false).1.durable = st.durable ∧
    (delete_document st h false).2 = .delSaveFail := by
  obtain ⟨docs, dur⟩ := st
  rcases List.mem_map.mp hdel with ⟨d0, hd0, hdh⟩
  have hlt : (docs.filter (fun d => !(d.doc_hash == h))).length < docs.length :=
    List.length_filter_lt_length_iff_exists.mpr ⟨d0, hd0, by simp [hdh]⟩
  refine ⟨?_, ?_, ?_, ?_, ?_⟩
  · simp [add_document, hc, hnd]
  · simp [add_document, hc, hnd]
  · simp [delete_document, hlt]
  · simp [delete_document, hlt]
  · simp [delete_document, hlt]

/-- Witness for add_delete_write_failure on the one-document store:
    adding "yo" with a failing save changes nothing, deleting "hi" with
    a failing save reconciles memory with the durable snapshot. -/
theorem add_delete_write_failure_witness :
    (add_document idHash kbOneDoc ("u".toList) ("yo".toList) false).1 = kbOneDoc ∧
    (add_document idHash kbOneDoc ("u".toList) ("yo".toList) false).2 = .saveFail ∧
    (delete_document kbOneDoc ("hi".toList) false).1.documents = kbOneDoc.durable ∧
    (delete_document kbOneDoc ("hi".toList) false).1.durable = kbOneDoc.durable ∧
    (delete_document kbOneDoc ("hi".toList) false).2 = .delSaveFail :=
  add_delete_write_failure idHash kbOneDoc ("u".toList) ("yo".toList) ("hi".toList)
    (by decide) (by decide) (by decide)

/-- Dedup idempotence: from a store with no document of the given
    content hash, a successful add followed by a second add of the same
    title and content succeeds then fails with the duplicate warning
    naming the conflicting title, leaves the store exactly as after the
    first call, and exactly one stored document carries that content
    hash. -/
theorem add_twice_dedup (hash : List Char → List Char) (st : KBState)
    (title content : List Char) (s2 : Bool)
    (ht : title ≠ []) (hc : pyStrip content ≠ [])
    (hnd : document_exists st (hash content) = false) :
    (add_document hash st title content true).2 = .ok ∧
    add_document hash (add_document hash st title content true).1 title content s2
      = ((add_document hash st title content true).1, .dupWarn title) ∧
    ((add_document hash st title content true).1.documents.filter
      (fun d => d.doc_hash == hash content)).length = 1 := by
  obtain ⟨docs, dur⟩ := st
  have hstep : add_document hash ⟨docs, dur⟩ title content true
      = (⟨docs ++ [⟨title, title, "text".toList, hash content, content,
            chunksOf content, (chunksOf content).length⟩],
          docs ++ [⟨title, title, "text".toList, hash content, content,
            chunksOf content, (chunksOf content).length⟩]⟩, .ok) := by
    simp [add_document, hc, hnd, ht]
  have hnone : ∀ d ∈ docs, ¬ (d.doc_hash == hash content) = true := by
    intro d hd hbe
    have hx : document_exists ⟨docs, dur⟩ (hash content) = true := by
      simp only [document_exists, List.any_eq_true]
      exact ⟨d, hd, hbe⟩
    rw [hnd] at hx
    cases hx
  refine ⟨by rw [hstep], ?_, ?_⟩
  · rw [hstep]
    simp [add_document, document_exists, hc, ht]
  · rw [hstep]
    simp only [List.filter_append, List.filter_eq_nil_iff.mpr hnone,
      List.nil_append, List.filter_cons]
    simp

/-- Witness for add_twice_dedup: adding "hi" twice to the empty store. -/
theorem add_twice_dedup_witness :
    (add_document idHash emptyKB ("t".toList) ("hi".toList) true).2 = .ok ∧
    add_document idHash (add_document idHash emptyKB ("t".toList) ("hi".toList) true).1
        ("t".toList) ("hi".toList) false
      = ((add_document idHash emptyKB ("t".toList) ("hi".toList) true).1,
          .dupWarn ("t".toList)) ∧
    ((add_document idHash emptyKB ("t".toList) ("hi".toList) true).1.documents.filter
      (fun d => d.doc_hash == idHash ("hi".toList))).length = 1 :=
  add_twice_dedup idHash emptyKB ("t".toList) ("hi".toList) false
    (by decide) (by decide) (by decide)

/-- Delete semantics: when the hash is present, delete with a successful
    save reports success, the document listing afterwards contains no
    summary with that hash, and every search result afterwards comes
    from a surviving document whose hash differs; when the hash is
    absent, delete reports not-found and leaves the store unchanged. -/
theorem delete_then_list_search (st : KBState) (h : List Char) (sOk : Bool) :
    (h ∈ st.documents.map Document.doc_hash →
      (delete_document st h true).2 = .deleted ∧
      (∀ s ∈ get_all_documents (delete_document st h true).1, s.doc_hash ≠ h) ∧
      (∀ q k r, r ∈ search_documents (delete_document st h true).1 q k →
        ∃ d ∈ (delete_document st h true).1.documents,
          d.doc_hash ≠ h ∧ r.filename = d.filename ∧ r.content ∈ d.chunks)) ∧
    (h ∉ st.documents.map Document.doc_hash →
      delete_document st h sOk = (st, .notFound)) := by
  obtain ⟨docs, dur⟩ := st
  constructor
  · intro hmem
    rcases List.mem_map.mp hmem with ⟨d0, hd0, hdh⟩
    have hlt : (docs.filter (fun d => !(d.doc_hash == h))).length < docs.length :=
      List.length_filter_lt_length_iff_exists.mpr ⟨d0, hd0, by simp [hdh]⟩
    have hdel : delete_document ⟨docs, dur⟩ h true
        = (⟨docs.filter (fun d => !(d.doc_hash == h)),
            docs.filter (fun d => !(d.doc_hash == h))⟩, .deleted) := by
      simp [delete_document, hlt]
    rw [hdel]
    refine ⟨rfl, ?_, ?_⟩
    · intro s hs
      simp only [get_all_documents] at hs
      rcases List.mem_map.mp hs with ⟨d, hd, rfl⟩
      have hdd := (List.mem_filter.mp hd).2
      simpa using hdd
    · intro q k r hr
      have hsc := mem_search_scored hr
      rcases mem_scoreChunks hsc with ⟨d, hd, i, chunk, hen, hsm⟩
      have hf := scoreChunk_some hsm
      refine ⟨d, hd, ?_, hf.2.2.1, ?_⟩
      · have hdd := (List.mem_filter.mp hd).2
        simpa using hdd
      · rcases List.mem_enum hen with ⟨hlt2, heq⟩
        rw [hf.1, heq]
        exact List.getElem_mem hlt2
  · intro hmem
    have hall : ∀ d ∈ docs, (!(d.doc_hash == h)) = true := by
      intro d hd
      have hne : d.doc_hash ≠ h := fun heq => hmem (List.mem_map.mpr ⟨d, hd, heq⟩)
      simpa using hne
    have hfe : docs.filter (fun d => !(d.doc_hash == h)) = docs :=
      List.filter_eq_self.mpr hall
    have hnlt : ¬ ((docs.filter (fun d => !(d.doc_hash == h))).length < docs.length) := by
      rw [hfe]
      omega
    simp [delete_document, hnlt, hfe]

/-- Witness for delete_then_list_search on the one-document store:
    deleting the present hash "hi" succeeds; deleting the absent hash
    "zz" reports not-found and leaves the store unchanged. -/
theorem delete_then_list_search_witness :
    (delete_document kbOneDoc ("hi".toList) true).2 = .deleted ∧
    delete_document kbOneDoc ("zz".toList) false = (kbOneDoc, .notFound) :=
  ⟨((delete_then_list_search kbOneDoc ("hi".toList) false).1 (by decide)).1,
    (delete_then_list_search kbOneDoc ("zz".toList) false).2 (by decide)⟩

/- ------------------------------------------------------------------ -/
/- The unique-hash invariant over all reachable store states           -/
/- ------------------------------------------------------------------ -/

lemma applyOp_nodup (hash : List Char → List Char) (st : KBState) (op : KBOp)
    (h1 : (st.documents.map Document.doc_hash).Nodup)
    (h2 : (st.durable.map Document.doc_hash).Nodup) :
    ((applyOp hash st op).documents.map Document.doc_hash).Nodup ∧
    ((applyOp hash st op).durable.map Document.doc_hash).Nodup := by
  obtain ⟨docs, dur⟩ := st
  cases op with
  | addOp t c s =>
    by_cases hc : pyStrip c = []
    · simpa [applyOp, add_document, hc] using ⟨h1, h2⟩
    · by_cases hex : document_exists ⟨docs, dur⟩ (hash c) = true
      · simpa [applyOp, add_document, hc, hex] using ⟨h1, h2⟩
      · have hnin : hash c ∉ docs.map Document.doc_hash := by
          intro hin
          rcases List.mem_map.mp hin with ⟨d, hd, hdh⟩
          exact hex (by
            simp only [document_exists, List.any_eq_true]
            exact ⟨d, hd, by simp [hdh]⟩)
        have happ : ((docs.map Document.doc_hash) ++ [hash c]).Nodup := by
          rw [List.nodup_append]
          exact ⟨h1, List.nodup_singleton _, by simpa [List.disjoint_singleton] using hnin⟩
        cases s with
        | true =>
          constructor <;>
            simpa [applyOp, add_document, hc, hex] using happ
        | false =>
          constructor
          · simpa [applyOp, add_document, hc, hex] using h1
          · simpa [applyOp, add_document, hc, hex] using h2
  | delOp hh s =>
    have hsub : ((docs.filter (fun d => !(d.doc_hash == hh))).map
        Document.doc_hash).Nodup :=
      List.Nodup.sublist (List.Sublist.map _ (List.filter_sublist docs)) h1
    by_cases hlt : (docs.filter (fun d => !(d.doc_hash == hh))).length < docs.length
    · cases s with
      | true =>
        constructor <;> simpa [applyOp, delete_document, hlt] using hsub
      | false =>
        constructor <;> simpa [applyOp, delete_document, hlt] using h2
    · constructor
      · simpa [applyOp, delete_document, hlt] using hsub
      · simpa [applyOp, delete_document, hlt] using h2
  | clearOp s =>
    cases s with
    | true => simp [applyOp, clear_all]
    | false =>
      constructor
      · simp [applyOp, clear_all]
      · simpa [applyOp, clear_all] using h2

lemma applyOps_nodup (hash : List Char → List Char) (ops : List KBOp) :
    (((applyOps hash ops).documents.map Document.doc_hash).Nodup) ∧
    (((applyOps hash ops).durable.map Document.doc_hash).Nodup) := by
  suffices hgen : ∀ (l : List KBOp) (st : KBState),
      (st.documents.map Document.doc_hash).Nodup →
      (st.durable.map Document.doc_hash).Nodup →
      (((l.foldl (applyOp hash) st).documents.map Document.doc_hash).Nodup ∧
       ((l.foldl (applyOp hash) st).durable.map Document.doc_hash).Nodup) by
    exact hgen ops emptyKB (by simp [emptyKB]) (by simp [emptyKB])
  intro l
  induction l with
  | nil =>
    intro st ha hb
    exact ⟨ha, hb⟩
  | cons op rest ih =>
    intro st ha hb
    have hstep := applyOp_nodup hash st op ha hb
    exact ih _ hstep.1 hstep.2

lemma nodup_filter_hash_le_one {l : List Document} {h : List Char}
    (hn : (l.map Document.doc_hash).Nodup) :
    (l.filter (fun d => d.doc_hash == h)).length ≤ 1 := by
  induction l with
  | nil => simp
  | cons d ds ih =>
    simp only [List.map_cons, List.nodup_cons] at hn
    rcases hn with ⟨hnin, hnd⟩
    by_cases hdh : (d.doc_hash == h) = true
    · have heq : d.doc_hash = h := by simpa using hdh
      have hnone : ∀ x ∈ ds, ¬ (x.doc_hash == h) = true := by
        intro x hx hbe
        have hxeq : x.doc_hash = h := by simpa using hbe
        exact hnin (List.mem_map.mpr ⟨x, hx, by rw [hxeq, heq]⟩)
      simp [List.filter_cons, hdh, List.filter_eq_nil_iff.mpr hnone]
    · simp only [List.filter_cons, hdh, if_false]
      exact ih hnd

lemma length_sub_filter_not (l : List Document) (h : List Char) :
    l.length - (l.filter (fun d => !(d.doc_hash == h))).length
      = (l.filter (fun d => d.doc_hash == h)).length := by
  induction l with
  | nil => simp
  | cons d ds ih =>
    have hle := List.length_filter_le (fun d => !(d.doc_hash == h)) ds
    cases hdh : (d.doc_hash == h) with
    | false =>
      simp [List.filter_cons, hdh]
      omega
    | true =>
      simp [List.filter_cons, hdh]
      omega

/-- In every store state reachable from the empty store by add, delete
    and clear operations (with arbitrary save outcomes), the stored
    content hashes are pairwise distinct; consequently at most one
    stored document carries any given hash, and the number of documents
    removed by a delete-by-hash (original length minus the length of
    the kept list, as in delete_document) is at most one. -/
theorem reachable_unique_hashes (hash : List Char → List Char) (ops : List KBOp)
    (h : List Char) :
    (((applyOps hash ops).documents.map Document.doc_hash).Nodup) ∧
    ((applyOps hash ops).documents.filter (fun d => d.doc_hash == h)).length ≤ 1 ∧
    (applyOps hash ops).documents.length
      - ((applyOps hash ops).documents.filter
          (fun d => !(d.doc_hash == h))).length ≤ 1 := by
  have hn := applyOps_nodup hash ops
  refine ⟨hn.1, nodup_filter_hash_le_one hn.1, ?_⟩
  rw [length_sub_filter_not]
  exact nodup_filter_hash_le_one hn.1

/- ------------------------------------------------------------------ -/
/- The answer generation failure path                                 -/
/- ------------------------------------------------------------------ -/

/-- If the external model call raises, generate_response does not
    propagate the error: it returns the fixed apology answer with
    confidence 0 and no sources.  The Lean function is total, modelling
    that the caller always receives an answer-shaped value. -/
theorem generation_failure_absorbed
    (llm : List Char → Except (List Char) (List Char))
    (question : List Char) (ctx : List SearchResult) (e : List Char)
    (h : llm (create_prompt question (ctx.map (fun r => r.content))) = .error e) :
    generate_response llm question ctx = ⟨apologyMessage, 0, []⟩ := by
  simp only [generate_response, h]

/-- Witness for generation_failure_absorbed with an always-failing
    external call. -/
theorem generation_failure_absorbed_witness :
    generate_response (fun _ => .error []) [] [] = ⟨apologyMessage, 0, []⟩ :=
  generation_failure_absorbed (fun _ => .error []) [] [] [] rfl
